import Mathlib

/-!
Shallow embedding of the audio sample engine of `fretty/sounds.py`.

Sample buffers of the core `Sound` operations are modelled as lists of exact
rationals (the source computes with IEEE floats); the sample values produced
by synthesis (sine waves, the attack envelope, the default overtone weights)
involve `sin`, `sqrt` and real exponentiation and live in `ℝ`.
Python exceptions are modelled with `Except PyErr`.
-/

/-- Python exception value raised by the embedded code (`ValueError`,
raised explicitly by `Sound.add`, by `StringSound`, and implicitly by
`np.zeros` on a negative size, by `np.interp` on an empty sample-point
array and by NumPy broadcasting on incompatible shapes). -/
inductive PyErr where
  | valueError
deriving DecidableEq

instance {ε α : Type} [DecidableEq ε] [DecidableEq α] : DecidableEq (Except ε α) := fun x y =>
  match x, y with
  | .error a, .error b =>
    if h : a = b then .isTrue (congrArg Except.error h)
    else .isFalse (fun hh => h (Except.error.inj hh))
  | .error _, .ok _ => .isFalse (fun hh => Except.noConfusion hh)
  | .ok _, .error _ => .isFalse (fun hh => Except.noConfusion hh)
  | .ok a, .ok b =>
    if h : a = b then .isTrue (congrArg Except.ok h)
    else .isFalse (fun hh => h (Except.ok.inj hh))

/-- Python `int(q)` on a real number: truncation toward zero. -/
def pyInt (q : ℚ) : ℤ := if 0 ≤ q then ⌊q⌋ else ⌈q⌉

/-- Python `round(q)`: round half to even.  Used only to state the claims
that mention rounding; the source itself never calls `round`. -/
def pyRound (q : ℚ) : ℤ :=
  if q - ⌊q⌋ = 1 / 2 then (if Even ⌊q⌋ then ⌊q⌋ else ⌊q⌋ + 1) else round q

/-- One evaluation of `np.interp(t, t_orig, xs)` where `t_orig i = i / origFs`
(the axis built by `resample` via `np.linspace(0, T - dt_orig, num=len(sound))`).
Query points outside the axis clamp to the end values. -/
def interpAt (xs : List ℚ) (origFs : ℚ) (t : ℚ) : ℚ :=
  if t * origFs ≤ 0 then xs.getD 0 0
  else if (xs.length : ℚ) - 1 ≤ t * origFs then xs.getD (xs.length - 1) 0
  else
    let k := (⌊t * origFs⌋).toNat
    xs.getD k 0 + (xs.getD (k + 1) 0 - xs.getD k 0) * (t * origFs - (k : ℚ))

/-- Number of query points of `np.arange(0, T, 1/newFs)` for `T = n / origFs`:
the number of naturals `j` with `j / newFs < T`. -/
def tNewLen (n : ℕ) (origFs newFs : ℚ) : ℕ := ⌈(n : ℚ) / origFs * newFs⌉₊

/-- Module-level `resample(sound, orig_fs, new_fs)`: linear interpolation of
the buffer onto the time axis of the new rate.  `np.interp` raises
`ValueError` when the array of sample points is empty. -/
def resample (sound : List ℚ) (origFs newFs : ℚ) : Except PyErr (List ℚ) :=
  if sound.isEmpty then .error .valueError
  else .ok ((List.range (tNewLen sound.length origFs newFs)).map
    fun j : ℕ => interpAt sound origFs ((j : ℚ) / newFs))

/-- The `Sound` class: a mono buffer of samples together with its sample rate. -/
structure Sound where
  samples : List ℚ
  fs : ℚ
deriving DecidableEq

/-- Class method `Sound.silence(duration, fs)`: `np.zeros(int(fs * duration))`;
`np.zeros` raises `ValueError` on a negative size. -/
def Sound.silence (duration : ℚ) (fs : ℚ) : Except PyErr Sound :=
  if pyInt (fs * duration) < 0 then .error .valueError
  else .ok ⟨List.replicate (pyInt (fs * duration)).toNat 0, fs⟩

/-- Property `Sound.duration`: `len(self._data) / self._fs`. -/
def Sound.duration (s : Sound) : ℚ := (s.samples.length : ℚ) / s.fs

/-- Method `Sound.data(copy, fs)`: the samples, resampled when `fs` differs
from the buffer's own rate (the `copy` flag has no observable effect here). -/
def Sound.data (s : Sound) (fs : ℚ) : Except PyErr (List ℚ) :=
  if fs = s.fs then .ok s.samples else resample s.samples s.fs fs

/-- Method `Sound.resample(fs, inplace)` (the spec's `withRate`): both the
in-place and the copying variant produce a buffer with these contents. -/
def Sound.withRate (s : Sound) (fs : ℚ) : Except PyErr Sound :=
  (resample s.samples s.fs fs).map fun d => ⟨d, fs⟩

/-- Slice assignment `dst[:len(src)] = src`; every use site passes
`len src ≤ len dst`. -/
def copyInto : List ℚ → List ℚ → List ℚ
  | dst, [] => dst
  | [], _ => []
  | _ :: dst, y :: src => y :: copyInto dst src

/-- Slice addition `dst[i:i+len(src)] += src`; every use site passes
`i + len src ≤ len dst`. -/
def addInto : List ℚ → ℕ → List ℚ → List ℚ
  | dst, _, [] => dst
  | [], _, _ :: _ => []
  | x :: dst, 0, y :: src => (x + y) :: addInto dst 0 src
  | x :: dst, i + 1, src => x :: addInto dst i src

/-- Method `Sound.add(sound, start_pos)` (the spec's `overlay`): mix `sound`
into a zero-padded copy of `self` starting at time `start_pos` (when
`start_pos` is `None` it defaults to `self.duration`, giving concatenation). -/
def Sound.add (a : Sound) (b : Sound) (startPos : Option ℚ) : Except PyErr Sound :=
  let fs := max a.fs b.fs
  let sp := startPos.getD a.duration
  if sp < 0 then .error .valueError
  else
    let newDuration := max a.duration (sp + b.duration)
    match Sound.silence newDuration fs with
    | .error e => .error e
    | .ok comb =>
      match a.data fs with
      | .error e => .error e
      | .ok selfData =>
        let s1 := min selfData.length comb.samples.length
        let d1 := copyInto comb.samples (selfData.take s1)
        let i := (pyInt (sp * fs)).toNat
        match b.data fs with
        | .error e => .error e
        | .ok soundData =>
          let s2 := min soundData.length (d1.length - i)
          .ok ⟨addInto d1 i (soundData.take s2), fs⟩

/-- Method `Sound.modulate(amplitudes, inplace)`: `self._data *= amplitudes`.
NumPy broadcasting accepts an amplitude array of equal length, or of length
one (which scales every sample), and raises `ValueError` otherwise. -/
def Sound.modulate (s : Sound) (amplitudes : List ℚ) : Except PyErr Sound :=
  if amplitudes.length = s.samples.length then
    .ok ⟨List.zipWith (fun x y => x * y) s.samples amplitudes, s.fs⟩
  else if amplitudes.length = 1 then
    .ok ⟨s.samples.map (fun x => x * amplitudes.headI), s.fs⟩
  else .error .valueError

/-- Sum of squared entries, `np.sum(overtones ** 2)`. -/
noncomputable def sumSq (ws : List ℝ) : ℝ := (ws.map fun w => w ^ 2).sum

/-- Line 234 of `sounds.py`: `overtones /= np.sum(overtones ** 2)` — each
weight is divided by the sum of the squared weights (not by its square root). -/
noncomputable def normalizeOvertones (ws : List ℝ) : List ℝ :=
  ws.map fun w => w / sumSq ws

/-- The 30 default weights `2.0 ** (-np.arange(30) / overdrive)`. -/
noncomputable def defaultOvertones (overdrive : ℚ) : List ℝ :=
  (List.range 30).map fun n : ℕ => Real.rpow 2 (-(n : ℝ) / (overdrive : ℝ))

/-- Lines 229-233 of `StringSound`: the weight list used by synthesis — the
caller's, when supplied; otherwise the default list, after checking
`overdrive > 0`. -/
noncomputable def overtoneWeights (overdrive : ℚ) (overtones : Option (List ℝ)) :
    Except PyErr (List ℝ) :=
  match overtones with
  | none =>
    if overdrive ≤ 0 then .error .valueError else .ok (defaultOvertones overdrive)
  | some ws => .ok ws

/-- The `PitchedSound` class: a buffer together with its fundamental. -/
structure PitchedSound where
  samples : List ℝ
  freq : ℚ
  fs : ℚ

/-- One overtone: `np.sin(2.0 * np.pi * (np.arange(N) * fn / fs + phase))`. -/
noncomputable def overtoneWave (fn fs : ℚ) (N : ℕ) (phase : ℝ) : List ℝ :=
  (List.range N).map fun i : ℕ =>
    Real.sin (2 * Real.pi * ((i : ℝ) * (fn : ℝ) / (fs : ℝ) + phase))

/-- The accumulation loop of `StringSound`: starting from `np.zeros(N)`, add
`vol * sin(...)` for each overtone `n` at frequency `f * (n + 1)`. -/
noncomputable def synthData (f fs : ℚ) (N : ℕ) (ws : List ℝ) (phases : ℕ → ℝ) : List ℝ :=
  ws.enum.foldl
    (fun data p =>
      List.zipWith (fun x y => x + y) data
        ((overtoneWave (f * ((p.1 : ℚ) + 1)) fs N (phases p.1)).map fun x => p.2 * x))
    (List.replicate N 0)

/-- The attack amplitude at time `t`: `2 * (0.01 / (t + 0.02)) ** 0.5`. -/
noncomputable def ampAt (t : ℚ) : ℝ := 2 * Real.sqrt ((1 / 100) / ((t : ℝ) + 1 / 50))

/-- The attack amplitude curve over the buffer's sample times
`t = np.arange(len) / fs` (method `Sound.times`). -/
noncomputable def ampCurve (N : ℕ) (fs : ℚ) : List ℝ :=
  (List.range N).map fun i : ℕ => ampAt ((i : ℚ) / fs)

/-- `self._data *= amplitudes` on a real-valued buffer, with the same NumPy
broadcast semantics as `Sound.modulate`. -/
noncomputable def modulateData (data amps : List ℝ) : Except PyErr (List ℝ) :=
  if amps.length = data.length then .ok (List.zipWith (fun x y => x * y) data amps)
  else if amps.length = 1 then .ok (data.map fun x => x * amps.headI)
  else .error .valueError

/-- Lines 246-250 of `StringSound` (the spec's `attackEnvelope`): modulate the
buffer in place by the attack amplitude curve. -/
noncomputable def attackEnvelope (s : PitchedSound) : Except PyErr PitchedSound :=
  (modulateData s.samples (ampCurve s.samples.length s.fs)).map fun d => ⟨d, s.freq, s.fs⟩

/-- `StringSound(f, duration, volume, attacked, overdrive, overtones, fs)`.
`phases` supplies the per-overtone draws of `np.random.rand()`.  The second
component of the result models the final contents of the caller's
`overtones` array: `overtones /= np.sum(overtones ** 2)` mutates the passed
array in place, so after a call with a supplied array the caller's array
holds the divided weights. -/
noncomputable def StringSound (f duration volume : ℚ) (attacked : Bool) (overdrive : ℚ)
    (overtones : Option (List ℝ)) (fs : ℚ) (phases : ℕ → ℝ) :
    Except PyErr (PitchedSound × Option (List ℝ)) :=
  match overtoneWeights overdrive overtones with
  | .error e => .error e
  | .ok ws =>
    let wsN := normalizeOvertones ws
    if pyInt (fs * duration) < 0 then .error .valueError
    else
      let N := (pyInt (fs * duration)).toNat
      let data := (synthData f fs N wsN phases).map fun x => x * (volume : ℝ)
      let sound : PitchedSound := ⟨data, f, fs⟩
      match (if attacked then attackEnvelope sound else .ok sound) with
      | .error e => .error e
      | .ok s2 => .ok (s2, overtones.map fun _ => wsN)

/-! ### List helper lemmas -/

lemma listGetD_take {α : Type} (l : List α) (n j : ℕ) (d : α) (hj : j < n) :
    (l.take n).getD j d = l.getD j d := by
  induction l generalizing n j with
  | nil => simp
  | cons x l ih =>
    cases n with
    | zero => omega
    | succ n =>
      cases j with
      | zero => simp
      | succ j => simpa using ih n j (by omega)

lemma listGetD_zipWith {α : Type} (f : α → α → α) (l1 l2 : List α) (j : ℕ) (d : α)
    (h1 : j < l1.length) (h2 : j < l2.length) :
    (List.zipWith f l1 l2).getD j d = f (l1.getD j d) (l2.getD j d) := by
  induction l1 generalizing l2 j with
  | nil => simp at h1
  | cons x l1 ih =>
    cases l2 with
    | nil => simp at h2
    | cons y l2 =>
      cases j with
      | zero => simp
      | succ j => simpa using ih l2 j (by simpa using h1) (by simpa using h2)

lemma listGetD_replicate (n j : ℕ) : (List.replicate n (0 : ℚ)).getD j 0 = 0 := by
  induction n generalizing j with
  | zero => simp
  | succ n ih =>
    cases j with
    | zero => simp
    | succ j => simp [ih j]

lemma listExt_getD {α : Type} (l1 l2 : List α) (d : α)
    (hlen : l1.length = l2.length)
    (h : ∀ j, j < l1.length → l1.getD j d = l2.getD j d) : l1 = l2 := by
  induction l1 generalizing l2 with
  | nil => cases l2 <;> simp_all
  | cons x l1 ih =>
    cases l2 with
    | nil => simp at hlen
    | cons y l2 =>
      have hx := h 0 (by simp)
      simp at hx
      subst hx
      have : l1 = l2 := by
        refine ih l2 (by simpa using hlen) fun j hj => ?_
        simpa using h (j + 1) (by simpa using hj)
      rw [this]

lemma copyInto_length (dst src : List ℚ) : (copyInto dst src).length = dst.length := by
  induction dst generalizing src with
  | nil => cases src <;> simp [copyInto]
  | cons x dst ih => cases src <;> simp [copyInto, ih]

lemma copyInto_getD (dst src : List ℚ) (j : ℕ) (hj : j < dst.length) :
    (copyInto dst src).getD j 0 =
      if j < src.length then src.getD j 0 else dst.getD j 0 := by
  induction dst generalizing src j with
  | nil => simp at hj
  | cons x dst ih =>
    cases src with
    | nil => simp [copyInto]
    | cons y src =>
      cases j with
      | zero => simp [copyInto]
      | succ j =>
        simp only [copyInto, List.getD_cons_succ, List.length_cons,
          Nat.add_lt_add_iff_right]
        exact ih src j (by simpa using hj)


lemma addInto_length (dst : List ℚ) (i : ℕ) (src : List ℚ) :
    (addInto dst i src).length = dst.length := by
  induction dst generalizing i src with
  | nil => cases src <;> simp [addInto]
  | cons x dst ih =>
    cases src with
    | nil => simp [addInto]
    | cons y src =>
      cases i with
      | zero => simp [addInto, ih]
      | succ i => simp [addInto, ih]

lemma addInto_getD (dst : List ℚ) (i : ℕ) (src : List ℚ) (j : ℕ)
    (hfit : i + src.length ≤ dst.length) (hj : j < dst.length) :
    (addInto dst i src).getD j 0 =
      dst.getD j 0 + (if i ≤ j ∧ j - i < src.length then src.getD (j - i) 0 else 0) := by
  induction dst generalizing i src j with
  | nil => simp at hj
  | cons x dst ih =>
    cases src with
    | nil => simp [addInto]
    | cons y src =>
      cases i with
      | zero =>
        cases j with
        | zero => simp [addInto]
        | succ j =>
          simp only [addInto, List.getD_cons_succ, Nat.sub_zero, List.length_cons,
            Nat.zero_le, true_and, Nat.add_lt_add_iff_right]
          rw [ih 0 src j (by simp only [List.length_cons] at hfit; omega)
            (by simpa using hj)]
          simp
      | succ i =>
        cases j with
        | zero => simp [addInto]
        | succ j =>
          simp only [addInto, List.getD_cons_succ, List.length_cons, Nat.succ_sub_succ,
            Nat.add_le_add_iff_right]
          exact ih i (y :: src) j (by simp only [List.length_cons] at hfit ⊢; omega)
            (by simpa using hj)

lemma silence_pos (d fs : ℚ) (hd : 0 ≤ fs * d) :
    Sound.silence d fs = .ok ⟨List.replicate (⌊fs * d⌋).toNat 0, fs⟩ := by
  have hpy : pyInt (fs * d) = ⌊fs * d⌋ := if_pos hd
  simp [Sound.silence, hpy, not_lt.mpr (Int.floor_nonneg.mpr hd)]

/-- Characterization of a successful `Sound.add` call: the result runs at the
combined rate, has the length of the allocated silence buffer, and each entry
is the zero-padded copy of `a` plus, from index `⌊off * fs⌋` on and truncated
at the end, the reconciled samples of `b`. -/
lemma add_spec (a b : Sound) (off : ℚ) (aD bD : List ℚ) (fs : ℚ)
    (hfs : fs = max a.fs b.fs)
    (ha : 0 < a.fs) (hb : 0 < b.fs) (hoff : 0 ≤ off)
    (haD : a.data fs = .ok aD) (hbD : b.data fs = .ok bD) :
    ∃ c, Sound.add a b (some off) = .ok c ∧ c.fs = fs ∧
      c.samples.length = (⌊fs * max a.duration (off + b.duration)⌋).toNat ∧
      ∀ j, j < c.samples.length →
        c.samples.getD j 0 =
          (if j < aD.length then aD.getD j 0 else 0) +
          (if (⌊off * fs⌋).toNat ≤ j ∧ j - (⌊off * fs⌋).toNat < bD.length
            then bD.getD (j - (⌊off * fs⌋).toNat) 0 else 0) := by
  subst hfs
  set fs := max a.fs b.fs with hfs
  have hfs0 : 0 < fs := lt_max_of_lt_left ha
  have hdura : 0 ≤ a.duration := div_nonneg (Nat.cast_nonneg _) ha.le
  have hdurb : 0 ≤ b.duration := div_nonneg (Nat.cast_nonneg _) hb.le
  have hnd : 0 ≤ max a.duration (off + b.duration) := le_trans hdura (le_max_left _ _)
  have hfnd : 0 ≤ fs * max a.duration (off + b.duration) := mul_nonneg hfs0.le hnd
  have hsil := silence_pos (max a.duration (off + b.duration)) fs hfnd
  set L := (⌊fs * max a.duration (off + b.duration)⌋).toNat with hL
  set i := (⌊off * fs⌋).toNat with hi
  have hpyi : pyInt (off * fs) = ⌊off * fs⌋ := if_pos (mul_nonneg hoff hfs0.le)
  have hiL : i ≤ L := by
    apply Int.toNat_le_toNat
    apply Int.floor_le_floor
    rw [mul_comm]
    apply mul_le_mul_of_nonneg_left _ hfs0.le
    exact le_max_of_le_right (le_add_of_nonneg_right hdurb)
  simp only [Sound.add, Option.getD_some, not_lt.mpr hoff, if_neg, hsil, haD, hbD,
    List.length_replicate, hpyi]
  simp only [if_false]
  refine ⟨_, rfl, rfl, ?_, ?_⟩
  · rw [addInto_length, copyInto_length, List.length_replicate]
  · intro j hj
    rw [addInto_length, copyInto_length, List.length_replicate] at hj
    have hs2a : min bD.length ((copyInto (List.replicate L 0) (aD.take (min aD.length L))).length - i) =
        min bD.length (L - i) := by
      rw [copyInto_length, List.length_replicate]
    have htake2len : (bD.take (min bD.length (L - i))).length = min bD.length (L - i) := by
      rw [List.length_take]
      omega
    have hfit : i + (bD.take (min bD.length (L - i))).length ≤
        (copyInto (List.replicate L 0) (aD.take (min aD.length L))).length := by
      rw [htake2len, copyInto_length, List.length_replicate]
      omega
    rw [hs2a, addInto_getD _ _ _ _ hfit (by rw [copyInto_length, List.length_replicate]; exact hj)]
    rw [copyInto_getD _ _ _ (by rw [List.length_replicate]; exact hj)]
    have htake1len : (aD.take (min aD.length L)).length = min aD.length L := by
      rw [List.length_take]; omega
    congr 1
    · rw [htake1len]
      by_cases hcase : j < aD.length
      · rw [if_pos (by omega), if_pos hcase, listGetD_take _ _ _ _ (by omega)]
      · rw [if_neg (by omega), if_neg hcase, listGetD_replicate]
    · rw [htake2len]
      by_cases hcase : i ≤ j ∧ j - i < bD.length
      · rw [if_pos (by omega), if_pos hcase, listGetD_take _ _ _ _ (by omega)]
      · rw [if_neg (by omega), if_neg hcase]

attribute [ext] Sound PitchedSound

/-- C3, counterexample: with both buffers at rate 10 and offset `0.27`,
`offset * rate = 2.7`, so the claimed start index is `round(2.7) = 3`; the
code however adds `b` starting at index `int(2.7) = 2`: the single sample of
`b` lands at index 2, and index 3 stays zero. -/
theorem C3_counterexample :
    Sound.add ⟨[0, 0, 0, 0, 0], 10⟩ ⟨[1], 10⟩ (some (27 / 100)) =
      .ok ⟨[0, 0, 1, 0, 0], 10⟩ ∧ pyRound ((27 / 100) * 10) = 3 := by
  constructor
  · simp [Sound.add, Sound.silence, Sound.data, Sound.duration, pyInt]
    norm_num [copyInto, addInto]
  · norm_num [pyRound, round_eq]

/-- C3, amended: for `overlay(a, b, offset)` with `offset ≥ 0`, the
rate-reconciled samples of `b` are added element-wise — added to, not written
over, the zero-padded copy of `a` — starting at index `⌊offset * rate⌋`
(truncation, as by Python `int`, not rounding), truncating at the end of the
result if needed, where `rate = max(a.sample_rate, b.sample_rate)`. -/
theorem C3_overlay_adds_at_truncated_index (a b : Sound) (off : ℚ) (aD bD : List ℚ)
    (fs : ℚ) (hfs : fs = max a.fs b.fs)
    (ha : 0 < a.fs) (hb : 0 < b.fs) (hoff : 0 ≤ off)
    (haD : a.data fs = .ok aD) (hbD : b.data fs = .ok bD) :
    ∃ c, Sound.add a b (some off) = .ok c ∧ c.fs = fs ∧
      c.samples.length = (⌊fs * max a.duration (off + b.duration)⌋).toNat ∧
      ∀ j, j < c.samples.length →
        c.samples.getD j 0 =
          (if j < aD.length then aD.getD j 0 else 0) +
          (if (⌊off * fs⌋).toNat ≤ j ∧ j - (⌊off * fs⌋).toNat < bD.length
            then bD.getD (j - (⌊off * fs⌋).toNat) 0 else 0) :=
  add_spec a b off aD bD fs hfs ha hb hoff haD hbD

/-- C3, witness: the amended theorem applied to two concrete one- and
two-sample buffers at rate 10 with offset 0.27. -/
theorem C3_witness :
    ∃ c, Sound.add ⟨[1, 2], 10⟩ ⟨[3], 10⟩ (some (27 / 100)) = .ok c ∧ c.fs = 10 ∧
      c.samples.length =
        (⌊(10 : ℚ) * max (Sound.duration ⟨[1, 2], 10⟩)
          (27 / 100 + Sound.duration ⟨[3], 10⟩)⌋).toNat ∧
      ∀ j, j < c.samples.length →
        c.samples.getD j 0 =
          (if j < ([1, 2] : List ℚ).length then ([1, 2] : List ℚ).getD j 0 else 0) +
          (if (⌊(27 / 100 : ℚ) * 10⌋).toNat ≤ j ∧
              j - (⌊(27 / 100 : ℚ) * 10⌋).toNat < ([3] : List ℚ).length
            then ([3] : List ℚ).getD (j - (⌊(27 / 100 : ℚ) * 10⌋).toNat) 0 else 0) :=
  C3_overlay_adds_at_truncated_index ⟨[1, 2], 10⟩ ⟨[3], 10⟩ (27 / 100) [1, 2] [3] 10
    (by norm_num) (by norm_num) (by norm_num) (by norm_num)
    (by simp [Sound.data]) (by simp [Sound.data])

/-- C7: overlaying two buffers of equal (positive) sample rate at offset 0 is
commutative: `overlay(a, b, 0)` and `overlay(b, a, 0)` are the same buffer. -/
theorem C7_overlay_zero_commutes (a b : Sound) (h : a.fs = b.fs) (hpos : 0 < a.fs) :
    Sound.add a b (some 0) = Sound.add b a (some 0) := by
  have hb0 : 0 < b.fs := h ▸ hpos
  have hfsa : max a.fs b.fs = a.fs := by rw [h, max_self]
  have haD : a.data (max a.fs b.fs) = .ok a.samples := by simp [Sound.data, hfsa]
  have hbD : b.data (max a.fs b.fs) = .ok b.samples := by simp [Sound.data, hfsa, h]
  have haD2 : a.data (max b.fs a.fs) = .ok a.samples := by
    rw [max_comm b.fs a.fs]; exact haD
  have hbD2 : b.data (max b.fs a.fs) = .ok b.samples := by
    rw [max_comm b.fs a.fs]; exact hbD
  obtain ⟨c1, e1, hc1fs, hc1len, hc1val⟩ :=
    add_spec a b 0 a.samples b.samples (max a.fs b.fs) rfl hpos hb0 le_rfl haD hbD
  obtain ⟨c2, e2, hc2fs, hc2len, hc2val⟩ :=
    add_spec b a 0 b.samples a.samples (max b.fs a.fs) rfl hb0 hpos le_rfl hbD2 haD2
  have hfs12 : max b.fs a.fs = max a.fs b.fs := max_comm _ _
  have hlen12 : c1.samples.length = c2.samples.length := by
    rw [hc1len, hc2len, zero_add, zero_add, hfs12, max_comm a.duration b.duration]
  have hizero : ((⌊(0 : ℚ) * max a.fs b.fs⌋).toNat) = 0 := by
    rw [zero_mul, Int.floor_zero]; rfl
  have hizero2 : ((⌊(0 : ℚ) * max b.fs a.fs⌋).toNat) = 0 := by
    rw [zero_mul, Int.floor_zero]; rfl
  have hcc : c1 = c2 := by
    ext1
    · apply listExt_getD _ _ 0 hlen12
      intro j hj
      rw [hc1val j hj, hc2val j (hlen12 ▸ hj)]
      rw [hizero, hizero2]
      simp only [Nat.zero_le, true_and, Nat.sub_zero]
      exact add_comm _ _
    · rw [hc1fs, hc2fs, hfs12]
  rw [e1, e2, hcc]

/-- C7, witness: commutativity of the zero-offset overlay at two concrete
equal-rate buffers. -/
theorem C7_witness :
    Sound.add ⟨[1], 10⟩ ⟨[2, 3], 10⟩ (some 0) =
      Sound.add ⟨[2, 3], 10⟩ ⟨[1], 10⟩ (some 0) :=
  C7_overlay_zero_commutes ⟨[1], 10⟩ ⟨[2, 3], 10⟩ rfl (by norm_num)

lemma pyInt_nonneg_iff (q : ℚ) : 0 ≤ pyInt q ↔ (-1 : ℚ) < q := by
  unfold pyInt
  split
  · rename_i hq
    constructor
    · intro _; linarith
    · intro _; exact Int.floor_nonneg.mpr hq
  · constructor
    · intro hc
      by_contra hq
      push_neg at hq
      have : (⌈q⌉ : ℤ) ≤ -1 := Int.ceil_le.mpr (by exact_mod_cast hq)
      omega
    · intro hq
      have : (-1 : ℤ) < ⌈q⌉ := Int.lt_ceil.mpr (by exact_mod_cast hq)
      omega

lemma listGetD_map {α : Type} (f : α → α) (l : List α) (j : ℕ) (d : α)
    (hj : j < l.length) : (l.map f).getD j d = f (l.getD j d) := by
  induction l generalizing j with
  | nil => simp at hj
  | cons x l ih =>
    cases j with
    | zero => simp
    | succ j => simpa using ih j (by simpa using hj)

/-- C4, counterexample: `silence(1, 0)` has `rate = 0 ≤ 0`, yet the call
succeeds and returns an empty buffer — there is no argument validation. -/
theorem C4_counterexample :
    (0 : ℚ) ≤ 0 ∧ Sound.silence 1 0 = .ok ⟨[], 0⟩ := by
  refine ⟨le_refl 0, ?_⟩
  simp [Sound.silence, pyInt]

/-- C4, amended: `silence(duration, rate)` performs no argument validation.
It returns a buffer of `int(rate * duration)` zero samples at `rate`, and the
only failure is the `ValueError` that `np.zeros` raises on a negative size:
the call succeeds exactly when `rate * duration > -1` (so calls with
`duration < 0` or `rate ≤ 0` whose product truncates to a non-negative size
succeed). -/
theorem C4_silence_succeeds_iff (d r : ℚ) :
    (∃ t, Sound.silence d r = .ok t ∧ t.fs = r ∧
      t.samples.length = (pyInt (r * d)).toNat ∧ ∀ x ∈ t.samples, x = 0) ↔
    (-1 : ℚ) < r * d := by
  constructor
  · rintro ⟨t, ht, -, -, -⟩
    by_cases hc : pyInt (r * d) < 0
    · rw [Sound.silence, if_pos hc] at ht
      exact absurd ht (by simp)
    · exact (pyInt_nonneg_iff (r * d)).mp (not_lt.mp hc)
  · intro hq
    have h0 : ¬ pyInt (r * d) < 0 := not_lt.mpr ((pyInt_nonneg_iff (r * d)).mpr hq)
    refine ⟨⟨List.replicate (pyInt (r * d)).toNat 0, r⟩, ?_, rfl, ?_, ?_⟩
    · rw [Sound.silence, if_neg h0]
    · simp
    · intro x hx
      exact List.eq_of_mem_replicate hx

/-- C4, witness: the amended characterization applied at `duration = 2`,
`rate = 1`. -/
theorem C4_witness :
    ∃ t, Sound.silence 2 1 = .ok t ∧ t.fs = 1 ∧
      t.samples.length = (pyInt ((1 : ℚ) * 2)).toNat ∧ ∀ x ∈ t.samples, x = 0 :=
  (C4_silence_succeeds_iff 2 1).mpr (by norm_num)

/-- C5, counterexample: modulating a two-sample buffer with a one-element
amplitude curve has mismatched lengths (`1 ≠ 2`) yet succeeds — NumPy
broadcasting scales both samples by the single amplitude. -/
theorem C5_counterexample :
    Sound.modulate ⟨[2, 3], 10⟩ [5] = .ok ⟨[10, 15], 10⟩ ∧
      ([5] : List ℚ).length ≠ ([2, 3] : List ℚ).length := by
  constructor
  · norm_num [Sound.modulate]
  · simp

/-- C5, amended: `modulate` performs no explicit length validation; it relies
on NumPy broadcasting.  It succeeds exactly when the amplitude curve has the
buffer's length (element-wise multiply) or length one (the single amplitude
scales every sample); any other mismatch raises `ValueError` from
broadcasting. -/
theorem C5_modulate_broadcast (s : Sound) (amps : List ℚ) :
    ((∃ t, s.modulate amps = .ok t ∧ t.fs = s.fs ∧
        t.samples.length = s.samples.length ∧
        ∀ j, j < s.samples.length →
          t.samples.getD j 0 = s.samples.getD j 0 * amps.getD (j % amps.length) 0) ↔
      (amps.length = s.samples.length ∨ amps.length = 1)) ∧
    (amps.length ≠ s.samples.length → amps.length ≠ 1 →
      s.modulate amps = .error .valueError) := by
  constructor
  · constructor
    · rintro ⟨t, ht, -, -, -⟩
      by_cases h1 : amps.length = s.samples.length
      · exact Or.inl h1
      · by_cases h2 : amps.length = 1
        · exact Or.inr h2
        · rw [Sound.modulate, if_neg h1, if_neg h2] at ht
          exact absurd ht (by simp)
    · intro hor
      by_cases h1 : amps.length = s.samples.length
      · refine ⟨⟨List.zipWith (fun x y => x * y) s.samples amps, s.fs⟩, ?_, rfl, ?_, ?_⟩
        · rw [Sound.modulate, if_pos h1]
        · simp [h1]
        · intro j hj
          have hja : j < amps.length := by omega
          rw [listGetD_zipWith _ _ _ _ _ hj hja, Nat.mod_eq_of_lt hja]
      · have h2 : amps.length = 1 := hor.resolve_left h1
        obtain ⟨x, hx⟩ := List.length_eq_one.mp h2
        refine ⟨⟨s.samples.map (fun v => v * amps.headI), s.fs⟩, ?_, rfl, ?_, ?_⟩
        · rw [Sound.modulate, if_neg h1, if_pos h2]
        · simp
        · intro j hj
          rw [listGetD_map _ _ _ _ hj, h2, Nat.mod_one, hx]
          simp
  · intro h1 h2
    rw [Sound.modulate, if_neg h1, if_neg h2]

/-- C5, witness: the error half of the amended theorem applied at a concrete
genuinely-mismatched pair (three amplitudes against two samples). -/
theorem C5_witness :
    Sound.modulate ⟨[1, 2], 10⟩ [4, 5, 6] = .error .valueError :=
  (C5_modulate_broadcast ⟨[1, 2], 10⟩ [4, 5, 6]).2 (by norm_num) (by norm_num)

lemma tNewLen_eq (n : ℕ) (ofs nfs : ℚ) : tNewLen n ofs nfs = ⌈(n : ℚ) / ofs * nfs⌉₊ := rfl

lemma withRate_spec (s : Sound) (fs2 : ℚ) (hne : s.samples ≠ []) :
    Sound.withRate s fs2 =
      .ok ⟨(List.range (tNewLen s.samples.length s.fs fs2)).map
        (fun j : ℕ => interpAt s.samples s.fs ((j : ℚ) / fs2)), fs2⟩ := by
  simp [Sound.withRate, resample, hne, Except.map]

/-- C8, counterexample: a three-sample buffer at rate 7 resampled to rate 5
and back gets five samples: its duration grows from `3/7` to `5/7`, a change
of `2/7`, which exceeds one sample period at either rate (`1/7` and `1/5`). -/
theorem C8_counterexample :
    (do
      let u ← Sound.withRate ⟨[1, 1, 1], 7⟩ 5
      Sound.withRate u 7) = .ok ⟨[1, 1, 1, 1, 1], 7⟩ ∧
    Sound.duration ⟨[1, 1, 1, 1, 1], 7⟩ - Sound.duration ⟨[1, 1, 1], 7⟩ = 2 / 7 ∧
    ¬ ((2 : ℚ) / 7 ≤ 1 / 7) ∧ ¬ ((2 : ℚ) / 7 ≤ 1 / 5) := by
  refine ⟨?_, ?_, by norm_num, by norm_num⟩
  · have hc1 : tNewLen 3 7 5 = 3 := by
      rw [tNewLen, Nat.ceil_eq_iff] <;> norm_num
    have hc2 : tNewLen 3 5 7 = 5 := by
      rw [tNewLen, Nat.ceil_eq_iff] <;> norm_num
    have h1 : Sound.withRate ⟨[1, 1, 1], 7⟩ 5 = .ok ⟨[1, 1, 1], 5⟩ := by
      simp [Sound.withRate, resample, hc1]
      norm_num [List.range_succ, interpAt, Except.map]
    have h2 : Sound.withRate ⟨[1, 1, 1], 5⟩ 7 = .ok ⟨[1, 1, 1, 1, 1], 7⟩ := by
      simp [Sound.withRate, resample, hc2]
      norm_num [List.range_succ, interpAt, Except.map]
    simp [h1, h2, bind, Except.bind]
  · norm_num [Sound.duration]

/-- C8, amended: resampling a non-empty buffer from rate `r1 = s.fs` to rate
`r2` and back never shortens it, and lengthens its duration by strictly less
than one sample period of each of the two rates combined (`1/r1 + 1/r2`); the
change can exceed a single sample period of either rate alone. -/
theorem C8_roundtrip_duration (s : Sound) (r2 : ℚ) (hne : s.samples ≠ [])
    (h1 : 0 < s.fs) (h2 : 0 < r2) :
    ∃ u t, s.withRate r2 = .ok u ∧ u.withRate s.fs = .ok t ∧ t.fs = s.fs ∧
      s.duration ≤ t.duration ∧
      t.duration < s.duration + 1 / s.fs + 1 / r2 := by
  have hf1 : s.fs ≠ 0 := ne_of_gt h1
  have hf2 : r2 ≠ 0 := ne_of_gt h2
  set n := s.samples.length with hn
  have hnpos : 0 < n := List.length_pos.mpr hne
  set X := (n : ℚ) / s.fs * r2 with hX
  have hXpos : 0 < X := by
    apply mul_pos _ h2
    exact div_pos (by exact_mod_cast hnpos) h1
  set N1 := tNewLen n s.fs r2 with hN1
  have hN1ceil : N1 = ⌈X⌉₊ := tNewLen_eq n s.fs r2
  have hN1pos : 0 < N1 := by rw [hN1ceil]; exact Nat.ceil_pos.mpr hXpos
  have hu := withRate_spec s r2 hne
  set uS := (List.range N1).map (fun j : ℕ => interpAt s.samples s.fs ((j : ℚ) / r2)) with huS
  have huSlen : uS.length = N1 := by simp [huS]
  have huSne : uS ≠ [] := by
    apply List.ne_nil_of_length_pos
    rw [huSlen]; exact hN1pos
  set Y := (N1 : ℚ) / r2 * s.fs with hY
  have hYpos : 0 < Y := by
    apply mul_pos _ h1
    exact div_pos (by exact_mod_cast hN1pos) h2
  set tS := (List.range (tNewLen N1 r2 s.fs)).map
    (fun j : ℕ => interpAt uS r2 ((j : ℚ) / s.fs)) with htS
  set N2 := tNewLen N1 r2 s.fs with hN2
  have ht : Sound.withRate ⟨uS, r2⟩ s.fs = .ok ⟨tS, s.fs⟩ := by
    rw [withRate_spec ⟨uS, r2⟩ s.fs huSne, htS, hN2]
    dsimp only
    rw [huSlen]
  have hN2ceil : N2 = ⌈Y⌉₊ := tNewLen_eq N1 r2 s.fs
  have htSlen : tS.length = N2 := by simp [htS]
  have hE : X ≤ (N1 : ℚ) := by rw [hN1ceil]; exact Nat.le_ceil X
  have hA : (N1 : ℚ) < X + 1 := by
    rw [hN1ceil]; exact Nat.ceil_lt_add_one hXpos.le
  have hEY : Y ≤ (N2 : ℚ) := by rw [hN2ceil]; exact Nat.le_ceil Y
  have hB : (N2 : ℚ) < Y + 1 := by
    rw [hN2ceil]; exact Nat.ceil_lt_add_one hYpos.le
  have hF : X / r2 * s.fs = (n : ℚ) := by rw [hX]; field_simp; ring
  have hkey1 : (n : ℚ) ≤ (N2 : ℚ) := by
    have hmid : X / r2 * s.fs ≤ (N1 : ℚ) / r2 * s.fs := by
      apply mul_le_mul_of_nonneg_right _ h1.le
      exact (div_le_div_iff_of_pos_right h2).mpr hE
    rw [hF] at hmid
    calc (n : ℚ) ≤ Y := by rw [hY]; exact hmid
    _ ≤ (N2 : ℚ) := hEY
  have hD : (X + 1) / r2 * s.fs = (n : ℚ) + s.fs / r2 := by
    rw [hX]; field_simp; ring
  have hkey2 : (N2 : ℚ) < (n : ℚ) + s.fs / r2 + 1 := by
    have hC : Y < (X + 1) / r2 * s.fs := by
      apply mul_lt_mul_of_pos_right _ h1
      exact (div_lt_div_iff_of_pos_right h2).mpr hA
    rw [hD] at hC
    linarith
  refine ⟨⟨uS, r2⟩, ⟨tS, s.fs⟩, hu, ht, rfl, ?_, ?_⟩
  · show (n : ℚ) / s.fs ≤ (tS.length : ℚ) / s.fs
    rw [htSlen]
    exact (div_le_div_iff_of_pos_right h1).mpr hkey1
  · show (tS.length : ℚ) / s.fs < (n : ℚ) / s.fs + 1 / s.fs + 1 / r2
    rw [htSlen]
    have hlt : (N2 : ℚ) / s.fs < ((n : ℚ) + s.fs / r2 + 1) / s.fs :=
      (div_lt_div_iff_of_pos_right h1).mpr hkey2
    have heq : ((n : ℚ) + s.fs / r2 + 1) / s.fs = (n : ℚ) / s.fs + 1 / s.fs + 1 / r2 := by
      field_simp
      ring
    linarith [hlt, heq ▸ hlt]

/-- C8, witness: the amended round-trip bound applied to a concrete two-sample
buffer at rate 4 resampled through rate 3. -/
theorem C8_witness :
    ∃ u t, Sound.withRate ⟨[1, 1], 4⟩ 3 = .ok u ∧ Sound.withRate u 4 = .ok t ∧
      t.fs = 4 ∧
      Sound.duration ⟨[1, 1], 4⟩ ≤ t.duration ∧
      t.duration < Sound.duration ⟨[1, 1], 4⟩ + 1 / 4 + 1 / 3 :=
  C8_roundtrip_duration ⟨[1, 1], 4⟩ 3 (by simp) (by norm_num) (by norm_num)

lemma sumSq_div (ws : List ℝ) (S : ℝ) :
    sumSq (ws.map fun w => w / S) = sumSq ws / S ^ 2 := by
  induction ws with
  | nil => simp [sumSq]
  | cons w ws ih =>
    simp only [sumSq, List.map_cons, List.map_map, List.sum_cons] at ih ⊢
    rw [div_pow, ih, div_add_div_same]

lemma ampCurve_length (N : ℕ) (fs : ℚ) : (ampCurve N fs).length = N := by
  simp [ampCurve]

lemma ampCurve_getD (N : ℕ) (fs : ℚ) (i : ℕ) (hi : i < N) :
    (ampCurve N fs).getD i 0 = ampAt ((i : ℚ) / fs) := by
  rw [ampCurve, List.getD_eq_getElem?_getD, List.getElem?_map]
  simp [List.getElem?_range, hi]

lemma attackEnvelope_spec (s : PitchedSound) :
    attackEnvelope s =
      .ok ⟨List.zipWith (fun x y => x * y) s.samples (ampCurve s.samples.length s.fs),
        s.freq, s.fs⟩ := by
  rw [attackEnvelope, modulateData, if_pos (ampCurve_length s.samples.length s.fs)]
  rfl

lemma synthAux_length (f fs : ℚ) (N : ℕ) (ph : ℕ → ℝ) (l : List (ℕ × ℝ)) (init : List ℝ)
    (h : init.length = N) :
    (l.foldl (fun data p =>
      List.zipWith (fun x y => x + y) data
        ((overtoneWave (f * ((p.1 : ℚ) + 1)) fs N (ph p.1)).map fun x => p.2 * x))
      init).length = N := by
  induction l generalizing init with
  | nil => simpa using h
  | cons q l ih =>
    apply ih
    simp [List.length_zipWith, overtoneWave, h]

lemma synthData_length (f fs : ℚ) (N : ℕ) (ws : List ℝ) (ph : ℕ → ℝ) :
    (synthData f fs N ws ph).length = N :=
  synthAux_length f fs N ph ws.enum _ (by simp)

lemma StringSound_ok (f dur vol : ℚ) (att : Bool) (od : ℚ) (ots : Option (List ℝ))
    (fs : ℚ) (ph : ℕ → ℝ) (ws : List ℝ)
    (hw : overtoneWeights od ots = .ok ws) (hN : ¬ pyInt (fs * dur) < 0) :
    ∃ p, StringSound f dur vol att od ots fs ph =
        .ok (p, ots.map fun _ => normalizeOvertones ws) ∧
      p.samples.length = (pyInt (fs * dur)).toNat ∧ p.freq = f ∧ p.fs = fs := by
  simp only [StringSound, hw]
  rw [if_neg hN]
  cases att with
  | false =>
    refine ⟨⟨(synthData f fs (pyInt (fs * dur)).toNat (normalizeOvertones ws) ph).map
      (fun x => x * (vol : ℝ)), f, fs⟩, ?_, ?_, rfl, rfl⟩
    · simp
    · simp [synthData_length]
  | true =>
    rw [if_pos rfl]
    rw [attackEnvelope_spec]
    refine ⟨_, rfl, ?_, rfl, rfl⟩
    simp [List.length_zipWith, ampCurve_length, synthData_length]

/-- C1, counterexample: a caller-supplied overtone list `[1, 1]` has sum of
squares 2; after the code's normalization `overtones /= np.sum(overtones**2)`
the weights are `[1/2, 1/2]`, whose sum of squares is `1/2`, not 1. -/
theorem C1_counterexample :
    sumSq (normalizeOvertones [1, 1]) = 1 / 2 ∧ ((1 : ℝ) / 2) ≠ 1 := by
  constructor
  · have h2 : sumSq [(1 : ℝ), 1] = 2 := by norm_num [sumSq]
    rw [normalizeOvertones, h2, sumSq_div, h2]
    norm_num
  · norm_num

/-- C1, amended: before synthesis the overtone weights (default-derived or
caller-supplied) are divided by the sum of their squares — not L2-normalized:
the used weights' sum of squares equals the reciprocal of the original sum of
squares, which is 1 only when the original sum of squares was already 1. -/
theorem C1_weights_divided_by_sum_of_squares (ws : List ℝ) (h : sumSq ws ≠ 0) :
    sumSq (normalizeOvertones ws) = (sumSq ws)⁻¹ := by
  rw [normalizeOvertones, sumSq_div, sq, ← div_div, div_self h, one_div]

/-- C1, witness: the amended normalization identity at the concrete weight
list `[2]`. -/
theorem C1_witness :
    sumSq [(2 : ℝ)] ≠ 0 ∧ sumSq (normalizeOvertones [(2 : ℝ)]) = (sumSq [(2 : ℝ)])⁻¹ :=
  ⟨by norm_num [sumSq], C1_weights_divided_by_sum_of_squares [(2 : ℝ)] (by norm_num [sumSq])⟩

lemma ampAt_zero : ampAt 0 = Real.sqrt 2 := by
  rw [ampAt]
  rw [show ((1 : ℝ) / 100) / (((0 : ℚ) : ℝ) + 1 / 50) = 2 / 4 by norm_num]
  rw [Real.sqrt_div (by norm_num : (0 : ℝ) ≤ 2), show (4 : ℝ) = 2 ^ 2 by norm_num,
    Real.sqrt_sq (by norm_num : (0 : ℝ) ≤ 2)]
  ring

/-- C2, counterexample: the attack envelope multiplier at `t = 0` is
`2 * sqrt(0.01 / 0.02) = sqrt 2 < 3/2`; it is nowhere near 14.14 — the
distance exceeds 12. -/
theorem C2_counterexample :
    ampAt 0 < 3 / 2 ∧ |(14.14 : ℝ) - ampAt 0| > 12 := by
  have hlt : ampAt 0 < 3 / 2 := by
    rw [ampAt_zero]
    apply (Real.sqrt_lt' (by norm_num : (0 : ℝ) < 3 / 2)).mpr
    norm_num
  have hge : 0 ≤ ampAt 0 := by
    rw [ampAt_zero]; exact Real.sqrt_nonneg 2
  refine ⟨hlt, ?_⟩
  rw [abs_of_nonneg (by linarith)]
  linarith

/-- C2, amended: `attackEnvelope` multiplies sample `i` of the buffer by
`amp(t) = 2 * sqrt(0.01 / (t + 0.02))` at `t = i / sample_rate`; the
multiplier at `t = 0` is finite and equals `sqrt 2 ≈ 1.414` (not 14.14). -/
theorem C2_attack_envelope (s : PitchedSound) (i : ℕ) (hi : i < s.samples.length) :
    (∃ t, attackEnvelope s = .ok t ∧ t.samples.length = s.samples.length ∧
      t.samples.getD i 0 = s.samples.getD i 0 * ampAt ((i : ℚ) / s.fs)) ∧
    ampAt 0 = Real.sqrt 2 ∧ |Real.sqrt 2 - 1414 / 1000| < 1 / 1000 := by
  refine ⟨?_, ampAt_zero, ?_⟩
  · rw [attackEnvelope_spec s]
    refine ⟨_, rfl, ?_, ?_⟩
    · simp [List.length_zipWith, ampCurve_length]
    · rw [listGetD_zipWith _ _ _ _ _ hi (by rw [ampCurve_length]; exact hi),
        ampCurve_getD _ _ _ hi]
  · have h1 : (1414 / 1000 : ℝ) < Real.sqrt 2 := by
      apply (Real.lt_sqrt (by norm_num : (0 : ℝ) ≤ 1414 / 1000)).mpr
      norm_num
    have h2 : Real.sqrt 2 < 1415 / 1000 := by
      apply (Real.sqrt_lt' (by norm_num : (0 : ℝ) < 1415 / 1000)).mpr
      norm_num
    rw [abs_lt]
    constructor <;> linarith

/-- C2, witness: the amended envelope law applied to the concrete one-sample
pitched buffer `⟨[1], 440, 10⟩` at index 0. -/
theorem C2_witness :
    (0 : ℕ) < 1 ∧
    ((∃ t, attackEnvelope ⟨[1], 440, 10⟩ = .ok t ∧
        t.samples.length = (⟨[1], 440, 10⟩ : PitchedSound).samples.length ∧
        t.samples.getD 0 0 =
          (⟨[1], 440, 10⟩ : PitchedSound).samples.getD 0 0 * ampAt ((0 : ℚ) / 10)) ∧
      ampAt 0 = Real.sqrt 2 ∧ |Real.sqrt 2 - 1414 / 1000| < 1 / 1000) :=
  ⟨by norm_num, C2_attack_envelope ⟨[1], 440, 10⟩ 0 (by simp)⟩

/-- C6, counterexample: `StringSound` at `duration = 0.57`, `fs = 10` (so
`duration * fs = 5.7`) returns a buffer of `int(5.7) = 5` samples, not
`round(5.7) = 6`. -/
theorem C6_counterexample :
    ∃ p r, StringSound 1 (57 / 100) 1 false 1 (some [1]) 10 (fun _ => 0) = .ok (p, r) ∧
      p.samples.length = 5 ∧ pyRound ((57 / 100) * 10) = 6 ∧ (5 : ℤ) ≠ 6 := by
  have hpy : pyInt ((10 : ℚ) * (57 / 100)) = 5 := by norm_num [pyInt]
  have hN : ¬ pyInt ((10 : ℚ) * (57 / 100)) < 0 := by rw [hpy]; norm_num
  obtain ⟨p, hp, hlen, -, -⟩ :=
    StringSound_ok 1 (57 / 100) 1 false 1 (some [1]) 10 (fun _ => 0) [1] rfl hN
  refine ⟨p, _, hp, ?_, ?_, by norm_num⟩
  · rw [hlen, hpy]
    rfl
  · norm_num [pyRound, round_eq]

/-- C6, amended: for every successful `StringSound` call with `duration ≥ 0`
and `fs > 0`, the returned buffer has exactly `int(duration * fs)` samples —
the product is truncated (`⌊duration * fs⌋`), not rounded. -/
theorem C6_stringtone_length_truncates (f dur vol : ℚ) (att : Bool) (od : ℚ)
    (ots : Option (List ℝ)) (fs : ℚ) (ph : ℕ → ℝ) (p : PitchedSound)
    (r : Option (List ℝ)) (hd : 0 ≤ dur) (hfs : 0 < fs)
    (hok : StringSound f dur vol att od ots fs ph = .ok (p, r)) :
    (p.samples.length : ℤ) = ⌊dur * fs⌋ := by
  have hmul : 0 ≤ fs * dur := mul_nonneg hfs.le hd
  have hpy : pyInt (fs * dur) = ⌊fs * dur⌋ := if_pos hmul
  have hN : ¬ pyInt (fs * dur) < 0 := by
    rw [hpy]; exact not_lt.mpr (Int.floor_nonneg.mpr hmul)
  cases hovt : overtoneWeights od ots with
  | error e =>
    simp only [StringSound, hovt] at hok
    exact absurd hok (by simp)
  | ok ws =>
    obtain ⟨p2, hp2, hlen, -, -⟩ := StringSound_ok f dur vol att od ots fs ph ws hovt hN
    rw [hp2] at hok
    have hpp : p2 = p := congrArg Prod.fst (Except.ok.inj hok)
    rw [← hpp, hlen, hpy, Int.toNat_of_nonneg (Int.floor_nonneg.mpr hmul), mul_comm]

/-- C6, witness: the amended length law applied to a concrete call with
`duration = 0`, `fs = 10`. -/
theorem C6_witness :
    ∃ p r, StringSound 1 0 1 true 1 (some [1]) 10 (fun _ => 0) = .ok (p, r) ∧
      (p.samples.length : ℤ) = ⌊(0 : ℚ) * 10⌋ := by
  obtain ⟨p, hp, -, -, -⟩ :=
    StringSound_ok 1 0 1 true 1 (some [1]) 10 (fun _ => 0) [1] rfl (by norm_num [pyInt])
  exact ⟨p, _, hp,
    C6_stringtone_length_truncates 1 0 1 true 1 (some [1]) 10 (fun _ => 0) p _
      le_rfl (by norm_num) hp⟩

/-- C9: when an overtone list is supplied, `overdrive` is never validated —
a call with `overdrive ≤ 0` and a supplied list succeeds, while the same
`overdrive` on the derive-default path (no list) raises `ValueError`. -/
theorem C9_overdrive_unchecked_for_supplied_list (f dur vol : ℚ) (att : Bool) (od : ℚ)
    (ws : List ℝ) (fs : ℚ) (ph : ℕ → ℝ) (hod : od ≤ 0) (hd : 0 ≤ dur) (hfs : 0 < fs) :
    (∃ p r, StringSound f dur vol att od (some ws) fs ph = .ok (p, r)) ∧
    StringSound f dur vol att od none fs ph = .error .valueError := by
  constructor
  · have hmul : 0 ≤ fs * dur := mul_nonneg hfs.le hd
    have hN : ¬ pyInt (fs * dur) < 0 := by
      rw [show pyInt (fs * dur) = ⌊fs * dur⌋ from if_pos hmul]
      exact not_lt.mpr (Int.floor_nonneg.mpr hmul)
    obtain ⟨p, hp, -⟩ := StringSound_ok f dur vol att od (some ws) fs ph ws rfl hN
    exact ⟨p, _, hp⟩
  · simp [StringSound, overtoneWeights, hod]

/-- C9, witness: `overdrive = 0` with the supplied list `[1]` succeeds and the
same call without a list fails. -/
theorem C9_witness :
    (∃ p r, StringSound 1 0 1 false 0 (some [1]) 10 (fun _ => 0) = .ok (p, r)) ∧
    StringSound 1 0 1 false 0 none 10 (fun _ => 0) = .error .valueError :=
  C9_overdrive_unchecked_for_supplied_list 1 0 1 false 0 [1] 10 (fun _ => 0)
    le_rfl le_rfl (by norm_num)

/-- C10: a caller-supplied overtone array is divided in place by the sum of
its squared entries: after a successful call the caller's array holds the
divided weights, which differ from the originals whenever the sum of squares
is not 1 (and some weight is non-zero). -/
theorem C10_supplied_array_divided_in_place (f dur vol : ℚ) (att : Bool) (od : ℚ)
    (ws : List ℝ) (fs : ℚ) (ph : ℕ → ℝ) (hd : 0 ≤ dur) (hfs : 0 < fs)
    (hS : sumSq ws ≠ 0) :
    (∃ p, StringSound f dur vol att od (some ws) fs ph =
      .ok (p, some (ws.map fun w => w / sumSq ws))) ∧
    (sumSq ws ≠ 1 → ∀ w ∈ ws, w ≠ 0 → (ws.map fun w => w / sumSq ws) ≠ ws) := by
  constructor
  · have hmul : 0 ≤ fs * dur := mul_nonneg hfs.le hd
    have hN : ¬ pyInt (fs * dur) < 0 := by
      rw [show pyInt (fs * dur) = ⌊fs * dur⌋ from if_pos hmul]
      exact not_lt.mpr (Int.floor_nonneg.mpr hmul)
    obtain ⟨p, hp, -⟩ := StringSound_ok f dur vol att od (some ws) fs ph ws rfl hN
    exact ⟨p, hp⟩
  · intro h1 w hw hw0 heq
    obtain ⟨k, hk, hkw⟩ := List.mem_iff_getElem.mp hw
    have hgd := congrArg (fun l => l.getD k 0) heq
    simp only at hgd
    rw [listGetD_map _ _ _ _ hk] at hgd
    have hwk : ws.getD k 0 = w := by
      rw [List.getD_eq_getElem?_getD, List.getElem?_eq_getElem hk, hkw]
      rfl
    rw [hwk] at hgd
    have h2 : w = w * sumSq ws := (div_eq_iff hS).mp hgd
    have h3 : w * sumSq ws = w * 1 := by rw [mul_one, ← h2]
    exact h1 (mul_left_cancel₀ hw0 h3)

/-- C10, witness: the in-place division law at the concrete supplied array
`[1, 1]`. -/
theorem C10_witness :
    (∃ p, StringSound 1 0 1 false 1 (some [1, 1]) 10 (fun _ => 0) =
      .ok (p, some (List.map (fun w => w / sumSq [(1 : ℝ), 1]) [(1 : ℝ), 1]))) ∧
    (sumSq [(1 : ℝ), 1] ≠ 1 → ∀ w ∈ [(1 : ℝ), 1], w ≠ 0 →
      List.map (fun w => w / sumSq [(1 : ℝ), 1]) [(1 : ℝ), 1] ≠ [(1 : ℝ), 1]) :=
  C10_supplied_array_divided_in_place 1 0 1 false 1 [(1 : ℝ), 1] 10 (fun _ => 0)
    le_rfl (by norm_num) (by norm_num [sumSq])
